import Mathlib

/-!
Verification of the music-recomposer core: a shallow embedding of
`StyleComposer.segment_and_score`, `StyleComposer.compose`
(src/src/style_composer.py) and `AudioGenerator._transform_audio`,
`AudioGenerator.generate` (src/src/audio_generator.py).

Modelling choices:
* audio samples are rationals; a waveform is a `List ℚ`;
* the external DSP primitives `librosa.effects.pitch_shift` and
  `librosa.effects.time_stretch` are abstract function parameters
  `ps : Waveform → ℕ → ℚ → Waveform` and `ts : Waveform → ℚ → Waveform`;
* the process-wide random source (Python's `random` module) is an explicit
  stream of unit rationals with a cursor; `random.random()` consumes one
  draw, `random.uniform(a, b)` is `a + (b - a) * random.random()`, and
  `random.choice(xs)` consumes one draw `u` and picks index `⌊u·len(xs)⌋`
  (raising on an empty sequence, as Python's `random.choice` does);
* Python exceptions become an `Except` error type: the `ValueError`
  raised by `range(0, n, 0)` is `invalidConfiguration`, the `IndexError`
  raised by `random.choice([])` is `emptyPool`, and the `ValueError`
  raised by `np.concatenate([])` is `emptyConcat`;
* `int()`, slicing `y[i:j]` and `range(start, stop, step)` follow Python
  semantics exactly (truncation toward zero, index clamping, the CPython
  element-count formula).
-/

/-- A waveform: an ordered list of numeric samples, modelled as rationals. -/
abbrev Waveform := List ℚ

/-- Errors of the embedded code. `invalidConfiguration` is the ValueError
raised by `range` on step 0; `emptyPool` is the IndexError raised by
`random.choice` on an empty sequence; `emptyConcat` is the ValueError
raised by `np.concatenate` on an empty list. -/
inductive MusicError where
  | invalidConfiguration : MusicError
  | emptyPool : MusicError
  | emptyConcat : MusicError
  deriving DecidableEq

/-- Python `int()` on a real value: truncation toward zero. -/
def pyInt (q : ℚ) : ℤ := if 0 ≤ q then ⌊q⌋ else -⌊-q⌋

/-- Clamp one bound of a Python slice to a list of length `n`
(a negative bound counts from the end, then both clamp into `[0, n]`). -/
def pySliceIndex (n : ℕ) (i : ℤ) : ℕ := (if i < 0 then max ((n : ℤ) + i) 0 else min i n).toNat

/-- Python slice `y[i:j]` with unit step. -/
def pySlice {α : Type} (y : List α) (i j : ℤ) : List α :=
  (y.drop (pySliceIndex y.length i)).take (pySliceIndex y.length j - pySliceIndex y.length i)

/-- Element count of Python `range(start, stop, step)` (CPython formula);
0 when `step = 0` (the caller raises before building the range). -/
def pyRangeLen (start stop step : ℤ) : ℕ :=
  if 0 < step then (if start < stop then ((stop - start - 1) / step + 1).toNat else 0)
  else if step < 0 then (if stop < start then ((start - stop - 1) / (-step) + 1).toNat else 0)
  else 0

/-- Python `range(start, stop, step)` as a list. -/
def pyRange (start stop step : ℤ) : List ℤ :=
  (List.range (pyRangeLen start stop step)).map (fun i : ℕ => start + step * (i : ℤ))

/-- Embedding of `StyleComposer.segment_and_score(y, segment_length)` with the sampling
rate `self.sr` passed explicitly. Computes
`samples_per_seg = int(segment_length * sr)`, builds
`[y[i:i+samples_per_seg] for i in range(0, len(y), samples_per_seg)]`
(where `range` with step 0 raises ValueError) and keeps the slices of
length exactly `samples_per_seg`. -/
def segment_and_score (y : Waveform) (segment_length : ℚ) (sr : ℕ) :
    Except MusicError (List Waveform) :=
  let samples_per_seg : ℤ := pyInt (segment_length * (sr : ℚ))
  if samples_per_seg = 0 then .error .invalidConfiguration
  else
    let segments := (pyRange 0 (y.length : ℤ) samples_per_seg).map
      (fun i => pySlice y i (i + samples_per_seg))
    .ok (segments.filter (fun seg => decide ((seg.length : ℤ) = samples_per_seg)))

/-- The process-wide pseudo-random source: a stream of unit rationals
(each intended to lie in `[0, 1)`) together with a cursor. -/
structure RandGen where
  stream : ℕ → ℚ
  pos : ℕ

/-- Consume one unit draw. -/
def RandGen.next (g : RandGen) : ℚ × RandGen := (g.stream g.pos, ⟨g.stream, g.pos + 1⟩)

/-- Python `random.random()`. -/
def randomRandom (g : RandGen) : ℚ × RandGen := g.next

/-- The value `random.uniform(a, b)` computes from one unit draw `u`. -/
def uniformVal (a b u : ℚ) : ℚ := a + (b - a) * u

/-- Python `random.uniform(a, b)`: `a + (b - a) * random.random()`. -/
def randomUniform (a b : ℚ) (g : RandGen) : ℚ × RandGen :=
  let p := g.next
  (uniformVal a b p.1, p.2)

/-- The index `random.choice` picks from a unit draw `u` over `n` items
(the modulus only guards degenerate draws outside `[0, 1)`). -/
def choiceIndex (u : ℚ) (n : ℕ) : ℕ := (⌊u * (n : ℚ)⌋).toNat % n

/-- Python `random.choice(xs)`: raises IndexError (`emptyPool`) on an empty
sequence, otherwise consumes one draw and picks a uniform index. -/
def randomChoice {α : Type} (xs : List α) (g : RandGen) : Except MusicError (α × RandGen) :=
  match xs with
  | [] => .error .emptyPool
  | x :: rest =>
    let p := g.next
    .ok ((x :: rest).get ⟨choiceIndex p.1 (rest.length + 1), by
      unfold choiceIndex; exact Nat.mod_lt _ (Nat.succ_pos _)⟩, p.2)

/-- The `for _ in range(num_phrases)` loop of `StyleComposer.compose`:
each pass draws a segment from the pool, then either pitch-shifts it
(coin `< 0.5`, amount `uniform(-1, 1)`) or time-stretches it
(rate `uniform(0.95, 1.05)`), and appends the result to `new_audio`. -/
def composeLoop (ps : Waveform → ℕ → ℚ → Waveform) (ts : Waveform → ℚ → Waveform) (sr : ℕ)
    (segments : List Waveform) : ℕ → List Waveform → RandGen →
    Except MusicError (List Waveform × RandGen)
  | 0, acc, g => .ok (acc, g)
  | n + 1, acc, g =>
    match randomChoice segments g with
    | .error e => .error e
    | .ok (seg, g₁) =>
      let q := randomRandom g₁
      let r :=
        if q.1 < 0.5 then
          let s := randomUniform (-1) 1 q.2
          (ps seg sr s.1, s.2)
        else
          let s := randomUniform 0.95 1.05 q.2
          (ts seg s.1, s.2)
      composeLoop ps ts sr segments n (acc ++ [r.1]) r.2

/-- Embedding of `StyleComposer.compose(segments, variation_strength, num_phrases)`:
runs the loop, then `np.concatenate(new_audio)` — which raises ValueError
(`emptyConcat`) when `new_audio` is empty. `variation_strength` is
accepted and never used, as in the source. -/
def compose (ps : Waveform → ℕ → ℚ → Waveform) (ts : Waveform → ℚ → Waveform) (sr : ℕ)
    (segments : List Waveform) (variation_strength : ℚ) (num_phrases : ℕ) (g : RandGen) :
    Except MusicError (Waveform × RandGen) :=
  match composeLoop ps ts sr segments num_phrases [] g with
  | .error e => .error e
  | .ok (new_audio, gN) =>
    match new_audio with
    | [] => .error .emptyConcat
    | _ => .ok (new_audio.flatten, gN)

/-- Embedding of the `AudioGenerator` per-file transform: draw a pitch step from the list
`[-2, -1, 1, 2]`, draw a stretch rate from `uniform(0.9, 1.1)`, apply the
pitch shift to `y` and the time stretch to the shifted signal. -/
def transform_audio (ps : Waveform → ℕ → ℚ → Waveform) (ts : Waveform → ℚ → Waveform)
    (sr : ℕ) (y : Waveform) (g : RandGen) : Except MusicError (Waveform × RandGen) :=
  match randomChoice [(-2 : ℚ), -1, 1, 2] g with
  | .error e => .error e
  | .ok (pitch_shift, g₁) =>
    let p := randomUniform 0.9 1.1 g₁
    .ok (ts (ps y sr pitch_shift) p.1, p.2)

def wavExt : String := ".wav"

def genTag : String := "generated_"

/-- Python `file.lower()`. -/
def lowerStr (s : String) : String := s.map Char.toLower

/-- Python `file.lower().endswith(".wav")`. -/
def isWavFile (f : String) : Bool := (lowerStr f).endsWith wavExt

/-- Embedding of `AudioGenerator.generate`: the directory listing and the loader are
inputs; each written file becomes an output pair (derived name, waveform).
Only names passing the `.wav` filter are processed; each processed file is
loaded whole, transformed by `_transform_audio`, and written under
`"generated_" + file`. -/
def generate (ps : Waveform → ℕ → ℚ → Waveform) (ts : Waveform → ℚ → Waveform) (sr : ℕ)
    (load : String → Waveform) : List String → RandGen →
    Except MusicError (List (String × Waveform) × RandGen)
  | [], g => .ok ([], g)
  | f :: rest, g =>
    if isWavFile f then
      match transform_audio ps ts sr (load f) g with
      | .error e => .error e
      | .ok (y_gen, g₁) =>
        match generate ps ts sr load rest g₁ with
        | .error e => .error e
        | .ok (outs, g₂) => .ok ((genTag ++ f, y_gen) :: outs, g₂)
    else generate ps ts sr load rest g

/-- Running `segment_and_score` threaded through the process random state: the
source body references no global state, so the generator passes through
untouched and the result does not depend on it. -/
def segment_and_score_run (g : RandGen) (y : Waveform) (segment_length : ℚ) (sr : ℕ) :
    Except MusicError (List Waveform) × RandGen :=
  (segment_and_score y segment_length sr, g)

/-- Running `compose`, together with the state of the mutable pool list after the
call: the source body only reads `segments` (via `random.choice`), so the
post-state of the pool is the pool itself. -/
def compose_run (ps : Waveform → ℕ → ℚ → Waveform) (ts : Waveform → ℚ → Waveform) (sr : ℕ)
    (pool : List Waveform) (variation_strength : ℚ) (num_phrases : ℕ) (g : RandGen) :
    Except MusicError Waveform × (List Waveform × RandGen) :=
  match compose ps ts sr pool variation_strength num_phrases g with
  | .ok (out, gN) => (.ok out, (pool, gN))
  | .error e => (.error e, (pool, g))

/-- The phrase produced by one loop pass of `compose` starting at
generator `g`, together with the generator afterwards. -/
def phraseAt (ps : Waveform → ℕ → ℚ → Waveform) (ts : Waveform → ℚ → Waveform) (sr : ℕ)
    (pool : List Waveform) (g : RandGen) : Waveform × RandGen :=
  match randomChoice pool g with
  | .error _ => ([], g)
  | .ok (seg, g₁) =>
    let q := randomRandom g₁
    if q.1 < 0.5 then
      let s := randomUniform (-1) 1 q.2
      (ps seg sr s.1, s.2)
    else
      let s := randomUniform 0.95 1.05 q.2
      (ts seg s.1, s.2)

/-- The list of phrases produced by `n` successive loop passes. -/
def phrasesFrom (ps : Waveform → ℕ → ℚ → Waveform) (ts : Waveform → ℚ → Waveform) (sr : ℕ)
    (pool : List Waveform) : ℕ → RandGen → List Waveform × RandGen
  | 0, g => ([], g)
  | n + 1, g =>
    let w := phraseAt ps ts sr pool g
    let rest := phrasesFrom ps ts sr pool n w.2
    (w.1 :: rest.1, rest.2)

/-- A degenerate pitch-shift stand-in used to instantiate theorems. -/
def psId : Waveform → ℕ → ℚ → Waveform := fun w _ _ => w

/-- A degenerate time-stretch stand-in used to instantiate theorems. -/
def tsId : Waveform → ℚ → Waveform := fun w _ => w

/-- A concrete generator whose stream is constantly 0. -/
def gZero : RandGen := ⟨fun _ => 0, 0⟩

def fileA : String := "a.wav"

def fileB : String := "b.wav"

/-- C7: Segmentation is deterministic and pure: threaded through the
process random state, any two calls, whatever the generator or prior
calls, return identical phrase sequences, and the call leaves the state
untouched and consumes no randomness. -/
theorem segment_deterministic_pure (y : Waveform) (L : ℚ) (sr : ℕ) (g₁ g₂ : RandGen) :
    segment_and_score_run g₁ y L sr = (segment_and_score y L sr, g₁) ∧
    (segment_and_score_run g₁ y L sr).1 = (segment_and_score_run g₂ y L sr).1 ∧
    (segment_and_score_run g₁ y L sr).2 = g₁ :=
  ⟨rfl, rfl, rfl⟩

/-- C8: The variation_strength parameter has no effect: with the random
source made explicit, compose returns identical output for any two values
of variation_strength. -/
theorem compose_variation_strength_no_effect (ps : Waveform → ℕ → ℚ → Waveform)
    (ts : Waveform → ℚ → Waveform) (sr : ℕ) (pool : List Waveform) (v₁ v₂ : ℚ)
    (k : ℕ) (g : RandGen) :
    compose ps ts sr pool v₁ k g = compose ps ts sr pool v₂ k g :=
  rfl

/-- C9: compose never mutates the pool: the pool state after the call is
the pool that was passed in, so a repeated call over the returned pool
state coincides with a call over the original pool. -/
theorem compose_pool_unchanged (ps : Waveform → ℕ → ℚ → Waveform)
    (ts : Waveform → ℚ → Waveform) (sr : ℕ) (pool : List Waveform) (vs : ℚ)
    (k : ℕ) (g : RandGen) :
    (compose_run ps ts sr pool vs k g).2.1 = pool ∧
    compose_run ps ts sr (compose_run ps ts sr pool vs k g).2.1 vs k
        (compose_run ps ts sr pool vs k g).2.2
      = compose_run ps ts sr pool vs k (compose_run ps ts sr pool vs k g).2.2 := by
  have h : (compose_run ps ts sr pool vs k g).2.1 = pool := by
    unfold compose_run
    cases hc : compose ps ts sr pool vs k g with
    | ok p => cases p; rfl
    | error e => rfl
  exact ⟨h, by rw [h]⟩

/-- C10: compose with num_phrases = 0 raises an error (the concatenation
of the empty phrase list fails) rather than returning an empty waveform,
even when the pool is non-empty. -/
theorem compose_zero_phrases_fails (ps : Waveform → ℕ → ℚ → Waveform)
    (ts : Waveform → ℚ → Waveform) (sr : ℕ) (pool : List Waveform) (vs : ℚ)
    (g : RandGen) (hpool : pool ≠ []) :
    compose ps ts sr pool vs 0 g = .error .emptyConcat :=
  rfl

/-- Witness for C10 at the concrete pool [[1]]. -/
theorem compose_zero_phrases_fails_witness :
    ([[(1 : ℚ)]] : List Waveform) ≠ [] ∧
    compose psId tsId 22050 [[(1 : ℚ)]] (1/10) 0 gZero = .error .emptyConcat :=
  ⟨by decide, compose_zero_phrases_fails psId tsId 22050 [[(1 : ℚ)]] (1/10) gZero (by decide)⟩

/-- C3 counterexample: with an empty pool and num_phrases = 0, compose
fails with the concatenation error (np.concatenate on an empty list), not
with EmptyPoolError — random.choice is never reached. -/
theorem compose_empty_pool_zero_phrases_not_emptyPool :
    compose psId tsId 22050 ([] : List Waveform) (1/10) 0 gZero = .error .emptyConcat ∧
    MusicError.emptyConcat ≠ MusicError.emptyPool :=
  ⟨rfl, by decide⟩

/-- C3 (amended): for every num_phrases ≥ 1, compose with an empty pool
fails with EmptyPoolError (the IndexError of random.choice on an empty
sequence). -/
theorem compose_empty_pool_fails (ps : Waveform → ℕ → ℚ → Waveform)
    (ts : Waveform → ℚ → Waveform) (sr : ℕ) (vs : ℚ) (g : RandGen) (k : ℕ)
    (hk : 1 ≤ k) :
    compose ps ts sr [] vs k g = .error .emptyPool := by
  cases k with
  | zero => omega
  | succ n => rfl

/-- Witness for C3 (amended) at num_phrases = 1. -/
theorem compose_empty_pool_fails_witness :
    (1 : ℕ) ≤ 1 ∧
    compose psId tsId 22050 ([] : List Waveform) (1/10) 1 gZero = .error .emptyPool :=
  ⟨le_refl 1, compose_empty_pool_fails psId tsId 22050 (1/10) gZero 1 (le_refl 1)⟩

/-- C4 counterexample: a negative phrase length does not fail: with
segment_length = -1 and sr = 22050, samples_per_seg = -22050 ≤ 0, yet
segment_and_score returns the empty list successfully. -/
theorem segment_negative_phrase_len_no_error :
    pyInt ((-1 : ℚ) * ((22050 : ℕ) : ℚ)) < 0 ∧
    segment_and_score [0, 0, 0] (-1) 22050 = .ok [] := by
  have hp : pyInt ((-1 : ℚ) * ((22050 : ℕ) : ℚ)) = -22050 := by
    norm_num [pyInt]
  refine ⟨by rw [hp]; norm_num, ?_⟩
  unfold segment_and_score
  simp only [hp]
  rw [if_neg (by norm_num)]
  simp [pyRange, pyRangeLen]

/-- C4 (amended): when samples_per_seg = int(L · sr) ≤ 0, segment fails
with InvalidConfiguration exactly when samples_per_seg = 0 (the ValueError
of range with step 0); when samples_per_seg < 0 it returns the empty
sequence without error. -/
theorem segment_nonpositive_phrase_len (y : Waveform) (L : ℚ) (sr : ℕ)
    (h : pyInt (L * (sr : ℚ)) ≤ 0) :
    segment_and_score y L sr =
      if pyInt (L * (sr : ℚ)) = 0 then .error .invalidConfiguration else .ok [] := by
  unfold segment_and_score
  by_cases h0 : pyInt (L * (sr : ℚ)) = 0
  · simp [h0]
  · have hneg : pyInt (L * (sr : ℚ)) < 0 := lt_of_le_of_ne h h0
    have hrange : pyRangeLen 0 (y.length : ℤ) (pyInt (L * (sr : ℚ))) = 0 := by
      unfold pyRangeLen
      rw [if_neg (by omega), if_pos hneg, if_neg (by omega)]
    simp [h0, pyRange, hrange]

/-- Witness for C4 (amended) at L = 0, where segment fails. -/
theorem segment_nonpositive_phrase_len_witness :
    pyInt ((0 : ℚ) * ((22050 : ℕ) : ℚ)) ≤ 0 ∧
    segment_and_score [1, 2] 0 22050 =
      (if pyInt ((0 : ℚ) * ((22050 : ℕ) : ℚ)) = 0 then .error .invalidConfiguration
       else .ok []) :=
  ⟨by norm_num [pyInt], segment_nonpositive_phrase_len [1, 2] 0 22050 (by norm_num [pyInt])⟩

lemma pySlice_natCast {α : Type} (y : List α) (a b : ℕ) :
    pySlice y (a : ℤ) (b : ℤ) = (y.drop a).take (b - a) := by
  unfold pySlice pySliceIndex
  rw [if_neg (by omega), if_neg (by omega)]
  rw [← Nat.cast_min (α := ℤ), ← Nat.cast_min (α := ℤ), Int.toNat_natCast, Int.toNat_natCast]
  rcases Nat.le_total a y.length with han | han
  · rw [Nat.min_eq_left han, List.take_eq_take]
    simp only [List.length_drop]
    omega
  · rw [Nat.min_eq_right han, List.drop_length, List.drop_eq_nil_of_le han]
    simp

lemma pySlice_block {α : Type} (y : List α) (s i : ℕ) :
    pySlice y ((s : ℤ) * (i : ℤ)) ((s : ℤ) * (i : ℤ) + (s : ℤ)) =
      (y.drop (s * i)).take s := by
  have h1 : ((s : ℤ) * (i : ℤ)) = ((s * i : ℕ) : ℤ) := by push_cast; ring
  rw [h1, ← Nat.cast_add, pySlice_natCast]
  congr 1
  omega

lemma range_filter_lt (q m : ℕ) (h : q ≤ m) :
    (List.range m).filter (fun i => decide (i < q)) = List.range q := by
  obtain ⟨t, rfl⟩ := Nat.exists_eq_add_of_le h
  rw [List.range_add, List.filter_append]
  have h1 : (List.range q).filter (fun i => decide (i < q)) = List.range q :=
    List.filter_eq_self.mpr (by intro a ha; simpa using List.mem_range.mp ha)
  have h2 : ((List.range t).map (fun x => q + x)).filter (fun i => decide (i < q)) = [] :=
    List.filter_eq_nil_iff.mpr (by intro a ha; simp only [List.mem_map, List.mem_range] at ha
                                   obtain ⟨x, _, rfl⟩ := ha; simp)
  rw [h1, h2, List.append_nil]

lemma le_pyRangeLen (n s : ℕ) (hs : 0 < s) :
    n / s ≤ pyRangeLen 0 (n : ℤ) (s : ℤ) := by
  unfold pyRangeLen
  rw [if_pos (by exact_mod_cast hs)]
  by_cases hn : (0 : ℤ) < (n : ℤ)
  · rw [if_pos hn]
    have hs' : (0 : ℤ) < (s : ℤ) := by exact_mod_cast hs
    have hq : ((n / s : ℕ) : ℤ) * (s : ℤ) ≤ (n : ℤ) := by exact_mod_cast Nat.div_mul_le_self n s
    have h1 : ((n / s : ℕ) : ℤ) - 1 ≤ ((n : ℤ) - 0 - 1) / (s : ℤ) := by
      rw [Int.le_ediv_iff_mul_le hs']
      nlinarith
    have h3 : (0 : ℤ) ≤ ((n : ℤ) - 0 - 1) / (s : ℤ) :=
      Int.ediv_nonneg (by omega) hs'.le
    omega
  · rw [if_neg hn]
    have hn0 : n = 0 := by omega
    simp [hn0]

/-- The closed form of segmentation for a positive phrase length: exactly
the first `⌊len(y) / s⌋` blocks of `s` samples. -/
lemma segment_pos_eq (y : Waveform) (L : ℚ) (sr : ℕ)
    (h : 0 < pyInt (L * (sr : ℚ))) :
    segment_and_score y L sr =
      .ok ((List.range (y.length / (pyInt (L * (sr : ℚ))).toNat)).map
        (fun i => (y.drop (i * (pyInt (L * (sr : ℚ))).toNat)).take
          ((pyInt (L * (sr : ℚ))).toNat))) := by
  obtain ⟨s, hs, hspl⟩ : ∃ s : ℕ, 0 < s ∧ pyInt (L * (sr : ℚ)) = (s : ℤ) :=
    ⟨(pyInt (L * (sr : ℚ))).toNat, by omega, by omega⟩
  rw [hspl]
  simp only [Int.toNat_natCast]
  unfold segment_and_score
  simp only [hspl]
  rw [if_neg (show ¬((s : ℤ) = (0 : ℤ)) by omega)]
  refine congrArg Except.ok ?_
  unfold pyRange
  rw [List.map_map]
  have hmapeq : (List.range (pyRangeLen 0 (y.length : ℤ) (s : ℤ))).map
      ((fun i : ℤ => pySlice y i (i + (s : ℤ))) ∘ (fun i : ℕ => 0 + (s : ℤ) * (i : ℤ)))
      = (List.range (pyRangeLen 0 (y.length : ℤ) (s : ℤ))).map
        (fun i : ℕ => (y.drop (s * i)).take s) :=
    List.map_congr_left (fun i _ => by
      simp only [Function.comp, zero_add]
      exact pySlice_block y s i)
  rw [hmapeq]
  rw [List.filter_map]
  have hpred : ∀ i ∈ List.range (pyRangeLen 0 (y.length : ℤ) (s : ℤ)),
      ((fun seg : Waveform => decide ((seg.length : ℤ) = (s : ℤ))) ∘
        (fun i : ℕ => (y.drop (s * i)).take s)) i = decide (i < y.length / s) := by
    intro i _
    simp only [Function.comp, List.length_take, List.length_drop]
    rw [decide_eq_decide, Nat.cast_inj, Nat.lt_iff_add_one_le, Nat.le_div_iff_mul_le hs,
      show (i + 1) * s = s * i + s from by ring]
    omega
  rw [List.filter_congr hpred]
  rw [range_filter_lt _ _ (le_pyRangeLen y.length s hs)]
  exact List.map_congr_left (fun i _ => by rw [Nat.mul_comm s i])

/-- C1: with phrase_len = int(L·sr) > 0, segmentation returns exactly
⌊len(w) / phrase_len⌋ phrases, the i-th being the contiguous block
w[i·phrase_len .. (i+1)·phrase_len), each of length exactly phrase_len;
the incomplete tail is discarded, and a waveform shorter than one phrase
(in particular an empty one) yields the empty sequence. -/
theorem segment_phrase_characterization (y : Waveform) (L : ℚ) (sr : ℕ)
    (h : 0 < pyInt (L * (sr : ℚ))) :
    ∃ phrases : List Waveform,
      segment_and_score y L sr = .ok phrases ∧
      phrases.length = y.length / (pyInt (L * (sr : ℚ))).toNat ∧
      (∀ i, i < phrases.length →
        phrases.getD i [] =
          (y.drop (i * (pyInt (L * (sr : ℚ))).toNat)).take ((pyInt (L * (sr : ℚ))).toNat) ∧
        (phrases.getD i []).length = (pyInt (L * (sr : ℚ))).toNat) ∧
      (y.length < (pyInt (L * (sr : ℚ))).toNat → phrases = []) := by
  refine ⟨_, segment_pos_eq y L sr h, by simp, ?_, ?_⟩
  · intro i hi
    simp only [List.length_map, List.length_range] at hi
    have hs : 0 < (pyInt (L * (sr : ℚ))).toNat := by omega
    have hgd : (((List.range (y.length / (pyInt (L * (sr : ℚ))).toNat)).map
        (fun i => (y.drop (i * (pyInt (L * (sr : ℚ))).toNat)).take
          ((pyInt (L * (sr : ℚ))).toNat))).getD i [])
        = (y.drop (i * (pyInt (L * (sr : ℚ))).toNat)).take ((pyInt (L * (sr : ℚ))).toNat) := by
      rw [List.getD_eq_getElem _ _ (by simpa using hi)]
      simp
    refine ⟨hgd, ?_⟩
    rw [hgd]
    have hmul : (i + 1) * (pyInt (L * (sr : ℚ))).toNat ≤ y.length :=
      (Nat.le_div_iff_mul_le hs).mp (Nat.lt_iff_add_one_le.mp hi)
    rw [show (i + 1) * (pyInt (L * (sr : ℚ))).toNat
        = i * (pyInt (L * (sr : ℚ))).toNat + (pyInt (L * (sr : ℚ))).toNat from by ring] at hmul
    simp only [List.length_take, List.length_drop]
    omega
  · intro hlt
    simp [Nat.div_eq_of_lt hlt]

/-- Witness for C1: a 7-sample waveform, 2-second segments at 1 Hz —
exactly 3 phrases of 2 samples each. -/
theorem segment_phrase_characterization_witness :
    0 < pyInt ((2 : ℚ) * ((1 : ℕ) : ℚ)) ∧
    ∃ phrases : List Waveform,
      segment_and_score [1, 2, 3, 4, 5, 6, 7] 2 1 = .ok phrases ∧
      phrases.length = [(1 : ℚ), 2, 3, 4, 5, 6, 7].length /
        (pyInt ((2 : ℚ) * ((1 : ℕ) : ℚ))).toNat ∧
      (∀ i, i < phrases.length →
        phrases.getD i [] =
          ([(1 : ℚ), 2, 3, 4, 5, 6, 7].drop (i * (pyInt ((2 : ℚ) * ((1 : ℕ) : ℚ))).toNat)).take
            ((pyInt ((2 : ℚ) * ((1 : ℕ) : ℚ))).toNat) ∧
        (phrases.getD i []).length = (pyInt ((2 : ℚ) * ((1 : ℕ) : ℚ))).toNat) ∧
      ([(1 : ℚ), 2, 3, 4, 5, 6, 7].length < (pyInt ((2 : ℚ) * ((1 : ℕ) : ℚ))).toNat →
        phrases = []) :=
  ⟨by norm_num [pyInt],
   segment_phrase_characterization [1, 2, 3, 4, 5, 6, 7] 2 1 (by norm_num [pyInt])⟩

lemma phraseAt_gen (ps : Waveform → ℕ → ℚ → Waveform) (ts : Waveform → ℚ → Waveform)
    (sr : ℕ) (x : Waveform) (rest : List Waveform) (g : RandGen) :
    (phraseAt ps ts sr (x :: rest) g).2 = ⟨g.stream, g.pos + 3⟩ := by
  simp only [phraseAt, randomChoice, randomRandom, randomUniform, RandGen.next]
  split
  · rfl
  · rfl

lemma phrasesFrom_length (ps : Waveform → ℕ → ℚ → Waveform) (ts : Waveform → ℚ → Waveform)
    (sr : ℕ) (pool : List Waveform) :
    ∀ (n : ℕ) (g : RandGen), (phrasesFrom ps ts sr pool n g).1.length = n := by
  intro n
  induction n with
  | zero => intro g; rfl
  | succ k ih => intro g; simp [phrasesFrom, ih]

lemma phrasesFrom_gen (ps : Waveform → ℕ → ℚ → Waveform) (ts : Waveform → ℚ → Waveform)
    (sr : ℕ) (x : Waveform) (rest : List Waveform) :
    ∀ (n : ℕ) (g : RandGen),
      (phrasesFrom ps ts sr (x :: rest) n g).2 = ⟨g.stream, g.pos + 3 * n⟩ := by
  intro n
  induction n with
  | zero => intro g; cases g; simp [phrasesFrom]
  | succ k ih =>
    intro g
    simp only [phrasesFrom]
    rw [phraseAt_gen, ih]
    dsimp only
    congr 1
    omega

lemma phrasesFrom_getD (ps : Waveform → ℕ → ℚ → Waveform) (ts : Waveform → ℚ → Waveform)
    (sr : ℕ) (x : Waveform) (rest : List Waveform) :
    ∀ (n : ℕ) (g : RandGen) (i : ℕ), i < n →
      (phrasesFrom ps ts sr (x :: rest) n g).1.getD i []
        = (phraseAt ps ts sr (x :: rest) ⟨g.stream, g.pos + 3 * i⟩).1 := by
  intro n
  induction n with
  | zero => intro g i hi; omega
  | succ k ih =>
    intro g i hi
    cases i with
    | zero =>
      simp only [phrasesFrom, List.getD_cons_zero]
      cases g
      simp
    | succ j =>
      simp only [phrasesFrom, List.getD_cons_succ]
      have hpp : g.pos + 3 + 3 * j = g.pos + 3 * (j + 1) := by omega
      rw [phraseAt_gen, ih _ j (by omega)]
      dsimp only
      rw [hpp]

lemma composeLoop_eq (ps : Waveform → ℕ → ℚ → Waveform) (ts : Waveform → ℚ → Waveform)
    (sr : ℕ) (x : Waveform) (rest : List Waveform) :
    ∀ (n : ℕ) (acc : List Waveform) (g : RandGen),
      composeLoop ps ts sr (x :: rest) n acc g
        = .ok (acc ++ (phrasesFrom ps ts sr (x :: rest) n g).1,
               (phrasesFrom ps ts sr (x :: rest) n g).2) := by
  intro n
  induction n with
  | zero => intro acc g; simp [composeLoop, phrasesFrom]
  | succ k ih =>
    intro acc g
    simp only [composeLoop, phrasesFrom, phraseAt, randomChoice, randomRandom, randomUniform,
      RandGen.next]
    split
    · rw [ih]
      simp
    · rw [ih]
      simp

lemma uniformVal_mem (a b u : ℚ) (hab : a ≤ b) (h0 : 0 ≤ u) (h1 : u < 1) :
    a ≤ uniformVal a b u ∧ uniformVal a b u ≤ b := by
  unfold uniformVal
  constructor <;> nlinarith

lemma randomChoice_unit {α : Type} (x : α) (rest : List α) (g : RandGen)
    (h0 : 0 ≤ g.stream g.pos) (h1 : g.stream g.pos < 1) :
    randomChoice (x :: rest) g
      = .ok ((x :: rest).getD
          ((⌊g.stream g.pos * ((rest.length + 1 : ℕ) : ℚ)⌋).toNat) x,
          ⟨g.stream, g.pos + 1⟩) := by
  have hn : (0 : ℚ) < ((rest.length + 1 : ℕ) : ℚ) := by push_cast; positivity
  have hfl0 : 0 ≤ ⌊g.stream g.pos * ((rest.length + 1 : ℕ) : ℚ)⌋ :=
    Int.floor_nonneg.mpr (mul_nonneg h0 hn.le)
  have hfl1 : ⌊g.stream g.pos * ((rest.length + 1 : ℕ) : ℚ)⌋ < ((rest.length + 1 : ℕ) : ℤ) := by
    rw [Int.floor_lt]
    have hstep : g.stream g.pos * ((rest.length + 1 : ℕ) : ℚ)
        < 1 * ((rest.length + 1 : ℕ) : ℚ) := mul_lt_mul_of_pos_right h1 hn
    rw [one_mul] at hstep
    push_cast
    push_cast at hstep
    linarith
  have hci : choiceIndex (g.stream g.pos) (rest.length + 1)
      = (⌊g.stream g.pos * ((rest.length + 1 : ℕ) : ℚ)⌋).toNat :=
    Nat.mod_eq_of_lt (by omega)
  have hlt : (⌊g.stream g.pos * ((rest.length + 1 : ℕ) : ℚ)⌋).toNat < (x :: rest).length := by
    simp only [List.length_cons]
    omega
  simp only [randomChoice, RandGen.next, List.get_eq_getElem, hci]
  rw [List.getD_eq_getElem _ _ hlt]

lemma phraseAt_eval (ps : Waveform → ℕ → ℚ → Waveform) (ts : Waveform → ℚ → Waveform)
    (sr : ℕ) (x : Waveform) (rest : List Waveform) (g : RandGen)
    (h0 : 0 ≤ g.stream g.pos) (h1 : g.stream g.pos < 1) :
    (phraseAt ps ts sr (x :: rest) g).1
      = (if g.stream (g.pos + 1) < 0.5
         then ps ((x :: rest).getD
             ((⌊g.stream g.pos * ((rest.length + 1 : ℕ) : ℚ)⌋).toNat) x) sr
             (uniformVal (-1) 1 (g.stream (g.pos + 2)))
         else ts ((x :: rest).getD
             ((⌊g.stream g.pos * ((rest.length + 1 : ℕ) : ℚ)⌋).toNat) x)
             (uniformVal 0.95 1.05 (g.stream (g.pos + 2)))) := by
  simp only [phraseAt]
  rw [randomChoice_unit x rest g h0 h1]
  simp only [randomRandom, randomUniform, RandGen.next]
  split
  · rfl
  · rfl

/-- C2: with a non-empty pool, k ≥ 1, and every unit draw in [0, 1),
compose runs exactly k iterations consuming 3 draws each; iteration i
draws the phrase of index ⌊u·n⌋ from the pool (u the fresh unit draw, n
the pool size — the uniform, with-replacement model of random.choice),
then applies exactly one transform: a pitch shift by uniform(-1, 1)
semitones when the fresh coin draw is < 0.5, otherwise a time stretch by
uniform(0.95, 1.05); the returned waveform is the concatenation of the k
transformed phrases in draw order. -/
theorem compose_characterization (ps : Waveform → ℕ → ℚ → Waveform)
    (ts : Waveform → ℚ → Waveform) (sr : ℕ) (pool : List Waveform) (vs : ℚ)
    (k : ℕ) (g : RandGen) (hpool : pool ≠ []) (hk : 1 ≤ k)
    (hu : ∀ j, 0 ≤ g.stream j ∧ g.stream j < 1) :
    ∃ phrases : List Waveform,
      compose ps ts sr pool vs k g
        = .ok (phrases.flatten, ⟨g.stream, g.pos + 3 * k⟩) ∧
      phrases.length = k ∧
      ∀ i, i < k →
        ∃ idx,
          idx = (⌊g.stream (g.pos + 3 * i) * (pool.length : ℚ)⌋).toNat ∧
          idx < pool.length ∧
          phrases.getD i []
            = (if g.stream (g.pos + 3 * i + 1) < 0.5
               then ps (pool.getD idx []) sr (uniformVal (-1) 1 (g.stream (g.pos + 3 * i + 2)))
               else ts (pool.getD idx []) (uniformVal 0.95 1.05 (g.stream (g.pos + 3 * i + 2)))) ∧
          (-1 ≤ uniformVal (-1) 1 (g.stream (g.pos + 3 * i + 2)) ∧
            uniformVal (-1) 1 (g.stream (g.pos + 3 * i + 2)) ≤ 1) ∧
          (0.95 ≤ uniformVal 0.95 1.05 (g.stream (g.pos + 3 * i + 2)) ∧
            uniformVal 0.95 1.05 (g.stream (g.pos + 3 * i + 2)) ≤ 1.05) := by
  obtain ⟨x, rest, rfl⟩ := List.exists_cons_of_ne_nil hpool
  refine ⟨(phrasesFrom ps ts sr (x :: rest) k g).1, ?_, phrasesFrom_length ps ts sr _ k g, ?_⟩
  · unfold compose
    rw [composeLoop_eq]
    simp only [List.nil_append]
    rw [phrasesFrom_gen]
    have hlen := phrasesFrom_length ps ts sr (x :: rest) k g
    rcases hph : (phrasesFrom ps ts sr (x :: rest) k g).1 with _ | ⟨w, ws⟩
    · rw [hph] at hlen
      simp at hlen
      omega
    · rfl
  · intro i hi
    rw [phrasesFrom_getD ps ts sr x rest k g i hi]
    have h0 : 0 ≤ (RandGen.mk g.stream (g.pos + 3 * i)).stream
        (RandGen.mk g.stream (g.pos + 3 * i)).pos := (hu _).1
    have h1 : (RandGen.mk g.stream (g.pos + 3 * i)).stream
        (RandGen.mk g.stream (g.pos + 3 * i)).pos < 1 := (hu _).2
    rw [phraseAt_eval ps ts sr x rest _ h0 h1]
    dsimp only
    have hn : (0 : ℚ) < ((rest.length + 1 : ℕ) : ℚ) := by push_cast; positivity
    have hfl0 : 0 ≤ ⌊g.stream (g.pos + 3 * i) * ((rest.length + 1 : ℕ) : ℚ)⌋ :=
      Int.floor_nonneg.mpr (mul_nonneg (hu _).1 hn.le)
    have hfl1 : ⌊g.stream (g.pos + 3 * i) * ((rest.length + 1 : ℕ) : ℚ)⌋
        < ((rest.length + 1 : ℕ) : ℤ) := by
      rw [Int.floor_lt]
      have hstep : g.stream (g.pos + 3 * i) * ((rest.length + 1 : ℕ) : ℚ)
          < 1 * ((rest.length + 1 : ℕ) : ℚ) := mul_lt_mul_of_pos_right (hu _).2 hn
      rw [one_mul] at hstep
      push_cast
      push_cast at hstep
      linarith
    have hltlen : (⌊g.stream (g.pos + 3 * i) * ((rest.length + 1 : ℕ) : ℚ)⌋).toNat
        < (x :: rest).length := by
      simp only [List.length_cons]
      omega
    have hcast : ((x :: rest).length : ℚ) = ((rest.length + 1 : ℕ) : ℚ) := by
      simp [List.length_cons]
    refine ⟨(⌊g.stream (g.pos + 3 * i) * ((rest.length + 1 : ℕ) : ℚ)⌋).toNat,
      by rw [hcast], hltlen, ?_, ?_, ?_⟩
    · have hdflt : (x :: rest).getD
          ((⌊g.stream (g.pos + 3 * i) * ((rest.length + 1 : ℕ) : ℚ)⌋).toNat) x
          = (x :: rest).getD
            ((⌊g.stream (g.pos + 3 * i) * ((rest.length + 1 : ℕ) : ℚ)⌋).toNat) [] := by
        rw [List.getD_eq_getElem _ _ hltlen, List.getD_eq_getElem _ _ hltlen]
      rw [hdflt]
    · exact uniformVal_mem (-1) 1 _ (by norm_num) (hu _).1 (hu _).2
    · exact uniformVal_mem 0.95 1.05 _ (by norm_num) (hu _).1 (hu _).2

/-- Every draw of the constant-zero generator lies in [0, 1). -/
lemma gZero_unit : ∀ j, 0 ≤ gZero.stream j ∧ gZero.stream j < 1 :=
  fun _ => by constructor <;> norm_num [gZero]

/-- Witness for C2 at the concrete pool [[1],[2]], one phrase, zero
stream. -/
theorem compose_characterization_witness :
    ∃ phrases : List Waveform,
      compose psId tsId 22050 [[1], [2]] (1/10) 1 gZero
        = .ok (phrases.flatten, ⟨gZero.stream, gZero.pos + 3 * 1⟩) ∧
      phrases.length = 1 ∧
      ∀ i, i < 1 →
        ∃ idx,
          idx = (⌊gZero.stream (gZero.pos + 3 * i) * (([[1], [2]] : List Waveform).length : ℚ)⌋).toNat ∧
          idx < ([[1], [2]] : List Waveform).length ∧
          phrases.getD i []
            = (if gZero.stream (gZero.pos + 3 * i + 1) < 0.5
               then psId (([[1], [2]] : List Waveform).getD idx []) 22050
                 (uniformVal (-1) 1 (gZero.stream (gZero.pos + 3 * i + 2)))
               else tsId (([[1], [2]] : List Waveform).getD idx [])
                 (uniformVal 0.95 1.05 (gZero.stream (gZero.pos + 3 * i + 2)))) ∧
          (-1 ≤ uniformVal (-1) 1 (gZero.stream (gZero.pos + 3 * i + 2)) ∧
            uniformVal (-1) 1 (gZero.stream (gZero.pos + 3 * i + 2)) ≤ 1) ∧
          (0.95 ≤ uniformVal 0.95 1.05 (gZero.stream (gZero.pos + 3 * i + 2)) ∧
            uniformVal 0.95 1.05 (gZero.stream (gZero.pos + 3 * i + 2)) ≤ 1.05) :=
  compose_characterization psId tsId 22050 [[1], [2]] (1/10) 1 gZero
    (by decide) (le_refl 1) gZero_unit

lemma transform_audio_eval (ps : Waveform → ℕ → ℚ → Waveform) (ts : Waveform → ℚ → Waveform)
    (sr : ℕ) (y : Waveform) (g : RandGen)
    (h0 : 0 ≤ g.stream g.pos) (h1 : g.stream g.pos < 1) :
    transform_audio ps ts sr y g
      = .ok (ts (ps y sr ([(-2 : ℚ), -1, 1, 2].getD (⌊g.stream g.pos * 4⌋).toNat (-2)))
              (uniformVal 0.9 1.1 (g.stream (g.pos + 1))),
             ⟨g.stream, g.pos + 2⟩) := by
  unfold transform_audio
  rw [randomChoice_unit (-2 : ℚ) [-1, 1, 2] g h0 h1]
  have hc : ((List.length [(-1 : ℚ), 1, 2] + 1 : ℕ) : ℚ) = 4 := by norm_num
  rw [hc]
  simp only [randomUniform, RandGen.next]

lemma pitch_choice_mem (u : ℚ) (h0 : 0 ≤ u) (h1 : u < 1) :
    [(-2 : ℚ), -1, 1, 2].getD (⌊u * 4⌋).toNat (-2) ∈ [(-2 : ℚ), -1, 1, 2] := by
  have hfl0 : 0 ≤ ⌊u * 4⌋ := Int.floor_nonneg.mpr (by nlinarith)
  have hfl1 : ⌊u * 4⌋ < 4 := by
    rw [Int.floor_lt]
    push_cast
    nlinarith
  have hlt : (⌊u * 4⌋).toNat < ([(-2 : ℚ), -1, 1, 2]).length := by
    simp only [List.length_cons, List.length_nil]
    omega
  rw [List.getD_eq_getElem _ _ hlt]
  exact List.getElem_mem hlt

/-- C5: for every input waveform (unit draws in [0, 1)) the batch
per-file transform draws one pitch step uniformly from the discrete list
[-2, -1, 1, 2] (index ⌊u·4⌋ of a fresh unit draw), then one stretch rate
uniform(0.9, 1.1), and returns the time stretch applied to the already
pitch-shifted signal: both transforms are always applied, sequentially,
in that order, consuming exactly two draws. -/
theorem transform_audio_characterization (ps : Waveform → ℕ → ℚ → Waveform)
    (ts : Waveform → ℚ → Waveform) (sr : ℕ) (y : Waveform) (g : RandGen)
    (hu : ∀ j, 0 ≤ g.stream j ∧ g.stream j < 1) :
    ∃ idx p r,
      idx = (⌊g.stream g.pos * 4⌋).toNat ∧
      idx < 4 ∧
      p = [(-2 : ℚ), -1, 1, 2].getD idx (-2) ∧
      p ∈ [(-2 : ℚ), -1, 1, 2] ∧
      r = uniformVal 0.9 1.1 (g.stream (g.pos + 1)) ∧
      0.9 ≤ r ∧ r ≤ 1.1 ∧
      transform_audio ps ts sr y g = .ok (ts (ps y sr p) r, ⟨g.stream, g.pos + 2⟩) := by
  have h0 := (hu g.pos).1
  have h1 := (hu g.pos).2
  have hfl0 : 0 ≤ ⌊g.stream g.pos * 4⌋ := Int.floor_nonneg.mpr (by nlinarith)
  have hfl1 : ⌊g.stream g.pos * 4⌋ < 4 := by
    rw [Int.floor_lt]
    push_cast
    nlinarith
  refine ⟨(⌊g.stream g.pos * 4⌋).toNat,
    [(-2 : ℚ), -1, 1, 2].getD (⌊g.stream g.pos * 4⌋).toNat (-2),
    uniformVal 0.9 1.1 (g.stream (g.pos + 1)),
    rfl, by omega, rfl, pitch_choice_mem _ h0 h1, rfl,
    (uniformVal_mem 0.9 1.1 _ (by norm_num) (hu _).1 (hu _).2).1,
    (uniformVal_mem 0.9 1.1 _ (by norm_num) (hu _).1 (hu _).2).2,
    transform_audio_eval ps ts sr y g h0 h1⟩

/-- Witness for C5 at the 1-sample waveform [9] and the zero stream. -/
theorem transform_audio_characterization_witness :
    ∃ idx p r,
      idx = (⌊gZero.stream gZero.pos * 4⌋).toNat ∧
      idx < 4 ∧
      p = [(-2 : ℚ), -1, 1, 2].getD idx (-2) ∧
      p ∈ [(-2 : ℚ), -1, 1, 2] ∧
      r = uniformVal 0.9 1.1 (gZero.stream (gZero.pos + 1)) ∧
      0.9 ≤ r ∧ r ≤ 1.1 ∧
      transform_audio psId tsId 22050 [9] gZero
        = .ok (tsId (psId [9] 22050 p) r, ⟨gZero.stream, gZero.pos + 2⟩) :=
  transform_audio_characterization psId tsId 22050 [9] gZero gZero_unit

/-- C6: for every directory listing, the batch transformer produces
exactly one output per name passing the .wav filter, keyed by the name
with "generated_" prepended, in listing order; each output is the whole
loaded file transformed by one discrete pitch shift followed by one time
stretch with rate in [0.9, 1.1] — no segmentation. -/
theorem generate_outputs (ps : Waveform → ℕ → ℚ → Waveform) (ts : Waveform → ℚ → Waveform)
    (sr : ℕ) (load : String → Waveform) :
    ∀ (files : List String) (g : RandGen),
      (∀ j, 0 ≤ g.stream j ∧ g.stream j < 1) →
      ∃ outs gEnd,
        generate ps ts sr load files g = .ok (outs, gEnd) ∧
        outs.map Prod.fst = (files.filter isWavFile).map (fun f => genTag ++ f) ∧
        ∀ o ∈ outs, ∃ f p r,
          f ∈ files ∧ isWavFile f = true ∧
          p ∈ [(-2 : ℚ), -1, 1, 2] ∧ 0.9 ≤ r ∧ r ≤ 1.1 ∧
          o = (genTag ++ f, ts (ps (load f) sr p) r) := by
  intro files
  induction files with
  | nil =>
    intro g hu
    exact ⟨[], g, rfl, by simp, by simp⟩
  | cons f rest ih =>
    intro g hu
    by_cases hw : isWavFile f
    · obtain ⟨outs, gEnd, hgen, hmap, hall⟩ := ih ⟨g.stream, g.pos + 2⟩ hu
      refine ⟨(genTag ++ f,
          ts (ps (load f) sr ([(-2 : ℚ), -1, 1, 2].getD (⌊g.stream g.pos * 4⌋).toNat (-2)))
            (uniformVal 0.9 1.1 (g.stream (g.pos + 1)))) :: outs, gEnd, ?_, ?_, ?_⟩
      · simp only [generate, hw, if_pos]
        rw [transform_audio_eval ps ts sr (load f) g (hu _).1 (hu _).2]
        dsimp only
        rw [hgen]
      · simp only [List.map_cons, List.filter_cons, hw, if_pos]
        rw [hmap]
      · intro o ho
        rcases List.mem_cons.mp ho with rfl | hmem
        · exact ⟨f, [(-2 : ℚ), -1, 1, 2].getD (⌊g.stream g.pos * 4⌋).toNat (-2),
            uniformVal 0.9 1.1 (g.stream (g.pos + 1)),
            List.mem_cons_self f rest, hw,
            pitch_choice_mem _ (hu _).1 (hu _).2,
            (uniformVal_mem 0.9 1.1 _ (by norm_num) (hu _).1 (hu _).2).1,
            (uniformVal_mem 0.9 1.1 _ (by norm_num) (hu _).1 (hu _).2).2, rfl⟩
        · obtain ⟨f', p, r, hf', hwf', hp, hr1, hr2, ho'⟩ := hall o hmem
          exact ⟨f', p, r, List.mem_cons_of_mem f hf', hwf', hp, hr1, hr2, ho'⟩
    · obtain ⟨outs, gEnd, hgen, hmap, hall⟩ := ih g hu
      refine ⟨outs, gEnd, ?_, ?_, ?_⟩
      · simp only [generate, hw, if_neg]
        exact hgen
      · simp only [List.filter_cons, hw]
        exact hmap
      · intro o ho
        obtain ⟨f', p, r, hf', hwf', hp, hr1, hr2, ho'⟩ := hall o ho
        exact ⟨f', p, r, List.mem_cons_of_mem f hf', hwf', hp, hr1, hr2, ho'⟩

/-- Witness for C6 on the listing [a.wav, b.wav] with a constant loader
and the zero stream. -/
theorem generate_outputs_witness :
    ∃ outs gEnd,
      generate psId tsId 22050 (fun _ => [3]) [fileA, fileB] gZero = .ok (outs, gEnd) ∧
      outs.map Prod.fst = ([fileA, fileB].filter isWavFile).map (fun f => genTag ++ f) ∧
      ∀ o ∈ outs, ∃ f p r,
        f ∈ [fileA, fileB] ∧ isWavFile f = true ∧
        p ∈ [(-2 : ℚ), -1, 1, 2] ∧ 0.9 ≤ r ∧ r ≤ 1.1 ∧
        o = (genTag ++ f, tsId (psId ((fun _ => [3]) f) 22050 p) r) :=
  generate_outputs psId tsId 22050 (fun _ => [3]) [fileA, fileB] gZero gZero_unit
